import Mathlib

/-!
Verification of the SpeedHQ encoder core (`libavcodec/speedhqenc.c`).

The file shallowly embeds the encoder: the little-endian bit writer is a
`List Bool` of emitted bits (LSB-first stream), static DC tables are Lean
functions built by the same formulas as `speedhq_init_static_data`, and the
per-block / per-macroblock / framing routines are direct translations of the
C functions.  Theorems `C1`..`C10` settle the specification claims.
-/

namespace SpeedHQ

/-! ## Little-endian bit writer

The bit writer (`put_bits_le`, `flush_put_bits_le`, `put_bytes_output`,
`AV_WL24`) lives in `libavcodec/put_bits.h` / `libavutil/intreadwrite.h`,
outside the sources at hand; it is modelled from the spec. -/

/-- Modelled from the spec: `put_bits_le(pb, n, value)` appends the low `n`
bits of `value` LSB-first.  The stream is the list of bits in emission
order, so byte `k` of the buffer is bits `8k..8k+7`, bit `8k` being the
byte's bit 0. -/
def putBitsLE : Nat → Nat → List Bool
  | 0, _ => []
  | n + 1, v => (v % 2 == 1) :: putBitsLE n (v / 2)

/-- `put_bits_le` on a C `int` value: the value is taken modulo `2^n`
(two's-complement low bits), as the wire sees it. -/
def putBitsLEInt (n : Nat) (v : Int) : List Bool :=
  putBitsLE n (v % (2 ^ n : Int)).toNat

/-- Modelled from the spec: `flush_put_bits_le` zero-pads to the next byte
boundary. -/
def flushPutBitsLE (s : List Bool) : List Bool :=
  s ++ List.replicate ((8 - s.length % 8) % 8) false

/-- Modelled from the spec: `put_bytes_output` — the byte offset of the
cursor; the source only consults it at byte-aligned points (right after a
flush, or after whole 24-bit fields). -/
def putBytesOutput (s : List Bool) : Nat := s.length / 8

/-- Modelled from the spec: `AV_WL24(buf + k, v)` back-patches bytes
`k..k+2` with the little-endian 24-bit value `v`; in the LSB-first bit
stream this replaces bits `8k..8k+23` by the low 24 bits of `v`. -/
def patchLE24 (s : List Bool) (k v : Nat) : List Bool :=
  s.take (8 * k) ++ putBitsLE 24 v ++ s.drop (8 * k + 24)

/-! ### Readers (verification infrastructure) -/

/-- Value of a bit string read LSB-first. -/
def bitsToNat : List Bool → Nat
  | [] => 0
  | b :: bs => (if b then 1 else 0) + 2 * bitsToNat bs

/-- Byte `k` of the stream. -/
def byteAt (s : List Bool) (k : Nat) : Nat := bitsToNat ((s.drop (8 * k)).take 8)

/-- The little-endian 24-bit value stored at byte offset `k`. -/
def readLE24 (s : List Bool) (k : Nat) : Nat := bitsToNat ((s.drop (8 * k)).take 24)

/-! ## Static DC tables (`speedhq_init_static_data`, lines 67-96)

The category-prefix bit-reversed code tables are in the source (lines
47-52).  The companion bit-length tables `ff_mpeg12_vlc_dc_lum_bits` /
`ff_mpeg12_vlc_dc_chroma_bits` live in `mpeg12data.c`, outside the sources
at hand, and are modelled from the spec. -/

/-- Halving recursion for `av_log2`, with enough fuel to terminate
(fuel `n` suffices for argument `n`). -/
def log2_aux : Nat → Nat → Nat
  | 0, _ => 0
  | fuel + 1, n => if n < 2 then 0 else log2_aux fuel (n / 2) + 1

/-- `av_log2`: floor of the base-2 logarithm, with `av_log2 0 = 0` (the
C fallback computes `31 - clz(v | 1)`).  `av_log2_16bit` agrees with it on
every argument the encoder feeds it (all below `2^16`). -/
def av_log2 (n : Nat) : Nat := log2_aux n n

/-- `av_zero_extend(v, bits)`: the low `bits` bits of the two's-complement
representation of `v`, i.e. `v mod 2^bits`. -/
def av_zero_extend (v : Int) (bits : Nat) : Nat := (v % (2 ^ bits : Int)).toNat

/-- Modelled from the spec: the MPEG-1/2 luminance DC category prefix
bit-lengths (`ff_mpeg12_vlc_dc_lum_bits` of `mpeg12data.c`, not among the
sources); the spec fixes the prefixes as the canonical MPEG-1/2 DC tables
bit-reversed, and the reversed codes in the source (line 48) pin these
lengths. -/
def ff_mpeg12_vlc_dc_lum_bits (i : Nat) : Nat :=
  [3, 2, 2, 3, 3, 4, 5, 6, 7, 8, 9, 9].getD i 0

/-- Modelled from the spec: the MPEG-1/2 chrominance DC category prefix
bit-lengths (`ff_mpeg12_vlc_dc_chroma_bits` of `mpeg12data.c`). -/
def ff_mpeg12_vlc_dc_chroma_bits (i : Nat) : Nat :=
  [2, 2, 2, 3, 4, 5, 6, 7, 8, 9, 10, 10].getD i 0

/-- `mpeg12_vlc_dc_lum_code_reversed` (source lines 47-49). -/
def mpeg12_vlc_dc_lum_code_reversed (i : Nat) : Nat :=
  [0x1, 0x0, 0x2, 0x5, 0x3, 0x7, 0xF, 0x1F, 0x3F, 0x7F, 0xFF, 0x1FF].getD i 0

/-- `mpeg12_vlc_dc_chroma_code_reversed` (source lines 50-52). -/
def mpeg12_vlc_dc_chroma_code_reversed (i : Nat) : Nat :=
  [0x0, 0x2, 0x1, 0x3, 0x7, 0xF, 0x1F, 0x3F, 0x7F, 0xFF, 0x1FF, 0x3FF].getD i 0

/-- One iteration of the DC-table build loop of `speedhq_init_static_data`
(lines 73-92): the packed entry `bits + (code << 8)` for DC difference `d`,
for the given prefix-length and prefix-code tables. -/
def dc_uni_entry (bitsTab codeTab : Nat → Nat) (d : Int) : Nat :=
  let adiff := d.natAbs
  let diff : Int := if d < 0 then d - 1 else d
  let index := av_log2 (2 * adiff)
  (bitsTab index + index) + ((codeTab index + (av_zero_extend diff index <<< bitsTab index)) <<< 8)

/-- `speedhq_lum_dc_uni[i]` as built by `speedhq_init_static_data`
(entry for DC difference `i - 255`). -/
def speedhq_lum_dc_uni (i : Nat) : Nat :=
  dc_uni_entry ff_mpeg12_vlc_dc_lum_bits mpeg12_vlc_dc_lum_code_reversed ((i : Int) - 255)

/-- `speedhq_chr_dc_uni[i]` as built by `speedhq_init_static_data`. -/
def speedhq_chr_dc_uni (i : Nat) : Nat :=
  dc_uni_entry ff_mpeg12_vlc_dc_chroma_bits mpeg12_vlc_dc_chroma_code_reversed ((i : Int) - 255)

/-! ## `encode_dc` (lines 169-201) -/

/-- The slow path of `encode_dc` (lines 172-190): recompute the category
index (`av_log2_16bit` of `2|diff|`), apply the negative-side decrement,
and emit prefix plus zero-extended tail. -/
def encode_dc_slow (diff : Int) (component : Nat) : List Bool :=
  let index := if diff < 0 then av_log2 (-2 * diff).toNat else av_log2 (2 * diff).toNat
  let diff2 : Int := if diff < 0 then diff - 1 else diff
  if component = 0 then
    putBitsLE (ff_mpeg12_vlc_dc_lum_bits index + index)
      (mpeg12_vlc_dc_lum_code_reversed index +
        (av_zero_extend diff2 index <<< ff_mpeg12_vlc_dc_lum_bits index))
  else
    putBitsLE (ff_mpeg12_vlc_dc_chroma_bits index + index)
      (mpeg12_vlc_dc_chroma_code_reversed index +
        (av_zero_extend diff2 index <<< ff_mpeg12_vlc_dc_chroma_bits index))

/-- `encode_dc` (lines 169-201).  The guard `(unsigned)(diff + 255) >= 511`
selects the slow path exactly when `diff < -255` or `diff > 255`; otherwise
the packed table entry (low byte = bit count, upper bits = code) is emitted
in one `put_bits_le` call. -/
def encode_dc (diff : Int) (component : Nat) : List Bool :=
  if diff + 255 < 0 ∨ 511 ≤ diff + 255 then
    encode_dc_slow diff component
  else
    let i := (diff + 255).toNat
    if component = 0 then
      putBitsLE (speedhq_lum_dc_uni i % 256) (speedhq_lum_dc_uni i / 256)
    else
      putBitsLE (speedhq_chr_dc_uni i % 256) (speedhq_chr_dc_uni i / 256)

/-! ## Picture / slice framer (lines 143-167) -/

/-- The bit-writer plus slice bookkeeping owned by the framer:
`pb` is `s->pb`, `slice_start` is `SpeedHQEncContext.slice_start`. -/
structure SHQState where
  pb : List Bool
  slice_start : Nat
  deriving DecidableEq, Repr

/-- `ff_speedhq_encode_picture_header` (lines 143-153): 8 bits of
`100 - qscale*2`, 24 bits of 4 ("no second field"), `slice_start := 4`,
then a 24-bit zero placeholder for the first slice length. -/
def ff_speedhq_encode_picture_header (qscale : Int) (s : SHQState) : SHQState :=
  { pb := s.pb ++ putBitsLEInt 8 (100 - qscale * 2) ++ putBitsLE 24 4 ++ putBitsLE 24 0,
    slice_start := 4 }

/-- `ff_speedhq_end_slice` (lines 155-167): flush to a byte boundary,
back-patch the 24-bit length field at `slice_start` with
`put_bytes_output - slice_start`, record the cursor as the new
`slice_start`, and append a 24-bit zero placeholder. -/
def ff_speedhq_end_slice (s : SHQState) : SHQState :=
  let pb := flushPutBitsLE s.pb
  let slice_len := putBytesOutput pb - s.slice_start
  let pb := patchLE24 pb s.slice_start slice_len
  let slice_start := putBytesOutput pb
  { pb := pb ++ putBitsLE 24 0, slice_start := slice_start }

/-! ## `ff_speedhq_encode_init` (lines 98-141) -/

/-- The two error codes the init path can return.  `AVERROR(EINVAL)` and
`AVERROR_PATCHWELCOME` are distinct negative integers defined in
`libavutil/error.h` (outside the sources at hand); modelled from the spec
as an enumeration of distinct values. -/
inductive InitError where
  | einval
  | patchwelcome
  deriving DecidableEq, Repr

/-- The input-validation part of `ff_speedhq_encode_init` (lines 102-111):
resolutions above 65500 in either dimension are rejected with
`AVERROR(EINVAL)`; then a width that is not a multiple of 16 is rejected
with `AVERROR_PATCHWELCOME`.  The remainder of the function only installs
tables and the codec tag and returns 0. -/
def ff_speedhq_encode_init (width height : Nat) : Except InitError Unit :=
  if width > 65500 ∨ height > 65500 then
    .error .einval
  else if width % 16 ≠ 0 then
    .error .patchwelcome
  else
    .ok ()

/-! ## `encode_block` (lines 203-250) -/

/-- The AC tables `speedhq_max_level` / `speedhq_index_run` (built by
`ff_rl_init_level_run` at init) and the canonical `ff_speedhq_vlc_table`
(defined in the speedhq data tables, outside the sources at hand).
`encode_block` only reads them, and the claims quantify over them
abstractly, so the embedding is parameterized over the four tables. -/
structure ACTables where
  /-- `speedhq_max_level[run]` -/
  max_level : Nat → Nat
  /-- `speedhq_index_run[run]` -/
  index_run : Nat → Nat
  /-- `ff_speedhq_vlc_table[i][0]` (the code) -/
  vlc_code : Nat → Nat
  /-- `ff_speedhq_vlc_table[i][1]` (the bit length) -/
  vlc_len : Nat → Nat

/-- The body of the AC loop for one nonzero coefficient (lines 226-244).
`MASK_ABS` leaves `alevel = |level|` and, after `& 1`, a sign that is 1
exactly for negative levels.  A magnitude within `speedhq_max_level[run]`
is emitted as its VLC with the sign bit stored in the next higher position
(`len + 1` bits of `code | sign << len`); anything else as the escape:
6 bits of 32, `run` in 6 bits, `level + 2048` in 12 bits. -/
def acCoeffBits (T : ACTables) (level : Int) (run : Nat) : List Bool :=
  let alevel := level.natAbs
  let sign : Nat := if level < 0 then 1 else 0
  if alevel ≤ T.max_level run then
    let code := T.index_run run + alevel - 1
    putBitsLE (T.vlc_len code + 1) (T.vlc_code code ||| (sign <<< T.vlc_len code))
  else
    putBitsLE 6 32 ++ putBitsLE 6 run ++ putBitsLEInt 12 (level + 2048)

/-- The AC loop of `encode_block` (lines 220-247), as a recursion on the
number of remaining iterations: scan position `i` runs over `cnt` values
starting at the given `i`, with the `last_non_zero` accumulator threaded
exactly as in the source. -/
def acLoop (T : ACTables) (scan : Nat → Nat) (block : Nat → Int) :
    Nat → Nat → Nat → List Bool
  | 0, _, _ => []
  | cnt + 1, i, last_non_zero =>
    let level := block (scan i)
    if level = 0 then
      acLoop T scan block cnt (i + 1) last_non_zero
    else
      acCoeffBits T level (i - last_non_zero - 1) ++ acLoop T scan block cnt (i + 1) i

/-- `encode_block` (lines 203-250): DC difference
`last_dc[component] - block[0]` (component 0 for `n ≤ 3`, else
`(n & 1) + 1`, written `n % 2 + 1`), the AC loop from scan position 1 to
`last_index`, and the 4-bit end-of-block code 6.  Returns the emitted bits
and the updated `last_dc`.  `scan` is `s->intra_scantable.permutated` and
`last_index` is `s->block_last_index[n]`. -/
def encode_block (T : ACTables) (scan : Nat → Nat) (last_index : Nat)
    (last_dc : Nat → Int) (block : Nat → Int) (n : Nat) :
    List Bool × (Nat → Int) :=
  let component := if n ≤ 3 then 0 else n % 2 + 1
  let dc := block 0
  let val := last_dc component - dc
  (encode_dc val component ++ acLoop T scan block last_index 1 0 ++ putBitsLE 4 6,
   fun k => if k = component then dc else last_dc k)

/-! ## `ff_speedhq_encode_mb` (lines 252-273) -/

/-- `s->chroma_format`. -/
inductive ChromaFormat where
  | c420
  | c422
  | c444
  deriving DecidableEq, Repr

/-- Encode the listed blocks in order, threading `last_dc` through the
successive `encode_block` calls and concatenating their bits. -/
def encodeBlocks (T : ACTables) (scan : Nat → Nat) (last_index : Nat → Nat)
    (blocks : Nat → Nat → Int) :
    List Nat → (Nat → Int) → List Bool × (Nat → Int)
  | [], last_dc => ([], last_dc)
  | n :: rest, last_dc =>
    let r := encode_block T scan (last_index n) last_dc (blocks n) n
    let rs := encodeBlocks T scan last_index blocks rest r.2
    (r.1 ++ rs.1, rs.2)

/-- `ff_speedhq_encode_mb` (lines 252-273): the loop over blocks 0..5,
then for `CHROMA_444` the six calls on blocks 8, 9, 6, 7, 10, 11 in that
order, or for `CHROMA_422` the two calls on blocks 6, 7. -/
def ff_speedhq_encode_mb (T : ACTables) (scan : Nat → Nat)
    (last_index : Nat → Nat) (cf : ChromaFormat) (blocks : Nat → Nat → Int)
    (last_dc : Nat → Int) : List Bool × (Nat → Int) :=
  let r0 := encodeBlocks T scan last_index blocks [0, 1, 2, 3, 4, 5] last_dc
  match cf with
  | .c444 =>
    let r1 := encodeBlocks T scan last_index blocks [8, 9, 6, 7, 10, 11] r0.2
    (r0.1 ++ r1.1, r1.2)
  | .c422 =>
    let r1 := encodeBlocks T scan last_index blocks [6, 7] r0.2
    (r0.1 ++ r1.1, r1.2)
  | .c420 => r0

/-! ## Claim-side descriptions -/

/-- Scan positions `1..last_index` holding a nonzero coefficient. -/
def nzPositions (scan : Nat → Nat) (block : Nat → Int) (last_index : Nat) : List Nat :=
  (List.range' 1 last_index).filter (fun i => block (scan i) != 0)

/-- The claim-side AC emission: each nonzero coefficient position `i`, in
order, contributes the per-coefficient emission with
`run = i - last_nonzero_position - 1`, the previous nonzero position
starting at 0. -/
def acClaimBits (T : ACTables) (scan : Nat → Nat) (block : Nat → Int) :
    List Nat → Nat → List Bool
  | [], _ => []
  | i :: rest, prev =>
    acCoeffBits T (block (scan i)) (i - prev - 1) ++ acClaimBits T scan block rest i

/-- The wire block order the claim states for each chroma format. -/
def mbClaimOrder : ChromaFormat → List Nat
  | .c420 => [0, 1, 2, 3, 4, 5]
  | .c422 => [0, 1, 2, 3, 4, 5, 6, 7]
  | .c444 => [0, 1, 2, 3, 4, 5, 8, 9, 6, 7, 10, 11]

/-- A small concrete instance of the AC tables, used to evaluate the
parameterized theorems on closed inputs. -/
def testTables : ACTables :=
  { max_level := fun _ => 2
    index_run := fun r => 3 * r
    vlc_code := fun c => 2 * c + 1
    vlc_len := fun c => c % 7 + 2 }

/-! ## Helper lemmas about the bit writer -/

@[simp] theorem length_putBitsLE (n v : Nat) : (putBitsLE n v).length = n := by
  induction n generalizing v with
  | zero => rfl
  | succ n ih => simp [putBitsLE, ih]

theorem bitsToNat_putBitsLE (n v : Nat) : bitsToNat (putBitsLE n v) = v % 2 ^ n := by
  induction n generalizing v with
  | zero => simp [putBitsLE, bitsToNat, Nat.mod_one]
  | succ n ih =>
    have h2 : v % 2 ^ (n + 1) = v % 2 + 2 * (v / 2 % 2 ^ n) := by
      rw [pow_succ, mul_comm (2 ^ n) 2, Nat.mod_mul]
    rw [putBitsLE, bitsToNat, ih, h2]
    rcases Nat.mod_two_eq_zero_or_one v with h | h <;> simp [h]

theorem bitsToNat_putBitsLE_of_lt {n v : Nat} (h : v < 2 ^ n) :
    bitsToNat (putBitsLE n v) = v := by
  rw [bitsToNat_putBitsLE, Nat.mod_eq_of_lt h]

@[simp] theorem length_flushPutBitsLE (s : List Bool) :
    (flushPutBitsLE s).length = s.length + (8 - s.length % 8) % 8 := by
  simp [flushPutBitsLE]

theorem length_flushPutBitsLE_mod (s : List Bool) :
    (flushPutBitsLE s).length % 8 = 0 := by
  rw [length_flushPutBitsLE]
  omega

/-! ## Helper lemmas about patching and reading the stream -/

theorem length_patchLE24 {s : List Bool} {k v : Nat} (h : 8 * k + 24 ≤ s.length) :
    (patchLE24 s k v).length = s.length := by
  simp only [patchLE24, List.length_append, List.length_take, List.length_drop,
    length_putBitsLE]
  omega

theorem readLE24_patchLE24 {s : List Bool} {k v : Nat} (h : 8 * k + 24 ≤ s.length) :
    readLE24 (patchLE24 s k v) k = v % 2 ^ 24 := by
  have hA : (s.take (8 * k)).length = 8 * k := by
    rw [List.length_take]; omega
  rw [readLE24, patchLE24, List.append_assoc, List.drop_left' hA,
    List.take_left' (length_putBitsLE 24 v), bitsToNat_putBitsLE]

theorem take_patchLE24 {s : List Bool} (k v : Nat) :
    (patchLE24 s k v).take ((s.take (8 * k)).length) = s.take (8 * k) := by
  rw [patchLE24, List.append_assoc, List.take_left]

theorem drop_patchLE24 {s : List Bool} {k v : Nat} (h : 8 * k + 24 ≤ s.length) :
    (patchLE24 s k v).drop (8 * k + 24) = s.drop (8 * k + 24) := by
  have hA : ((s.take (8 * k)) ++ putBitsLE 24 v).length = 8 * k + 24 := by
    simp only [List.length_append, List.length_take, length_putBitsLE]
    omega
  rw [patchLE24, List.drop_left' hA]

theorem readLE24_append_last {s : List Bool} {v : Nat} (h : s.length % 8 = 0) :
    readLE24 (s ++ putBitsLE 24 v) (s.length / 8) = v % 2 ^ 24 := by
  have hs : 8 * (s.length / 8) = s.length := by omega
  rw [readLE24, hs, List.drop_left, List.take_of_length_le (by rw [length_putBitsLE]),
    bitsToNat_putBitsLE]

theorem readLE24_append_left {x y : List Bool} {k : Nat} (h : 8 * k + 24 ≤ x.length) :
    readLE24 (x ++ y) k = readLE24 x k := by
  rw [readLE24, readLE24, List.drop_append_eq_append_drop,
    show 8 * k - x.length = 0 by omega, List.drop_zero,
    List.take_append_eq_append_take,
    show 24 - (x.drop (8 * k)).length = 0 by rw [List.length_drop]; omega,
    List.take_zero, List.append_nil]

/-! ### Facts about `ff_speedhq_end_slice` -/

theorem end_slice_pb (s : SHQState) :
    (ff_speedhq_end_slice s).pb =
      patchLE24 (flushPutBitsLE s.pb) s.slice_start
          (putBytesOutput (flushPutBitsLE s.pb) - s.slice_start) ++ putBitsLE 24 0 := rfl

theorem flush_len_eq (s : List Bool) :
    (flushPutBitsLE s).length = 8 * putBytesOutput (flushPutBitsLE s) := by
  have h8 := length_flushPutBitsLE_mod s
  have := Nat.div_add_mod (flushPutBitsLE s).length 8
  rw [putBytesOutput]
  omega

theorem end_slice_sliceStart (s : SHQState)
    (hin : s.slice_start + 3 ≤ putBytesOutput (flushPutBitsLE s.pb)) :
    (ff_speedhq_end_slice s).slice_start = putBytesOutput (flushPutBitsLE s.pb) := by
  have hFB := flush_len_eq s.pb
  have h8 : 8 * s.slice_start + 24 ≤ (flushPutBitsLE s.pb).length := by omega
  show putBytesOutput (patchLE24 (flushPutBitsLE s.pb) s.slice_start _) = _
  rw [putBytesOutput, length_patchLE24 h8, putBytesOutput]

theorem end_slice_field (s : SHQState)
    (hin : s.slice_start + 3 ≤ putBytesOutput (flushPutBitsLE s.pb))
    (hlen : putBytesOutput (flushPutBitsLE s.pb) - s.slice_start < 2 ^ 24) :
    readLE24 (ff_speedhq_end_slice s).pb s.slice_start =
      putBytesOutput (flushPutBitsLE s.pb) - s.slice_start := by
  have hFB := flush_len_eq s.pb
  have h8 : 8 * s.slice_start + 24 ≤ (flushPutBitsLE s.pb).length := by omega
  rw [end_slice_pb,
    readLE24_append_left (by rw [length_patchLE24 h8]; omega),
    readLE24_patchLE24 h8, Nat.mod_eq_of_lt hlen]

theorem end_slice_placeholder (s : SHQState)
    (hin : s.slice_start + 3 ≤ putBytesOutput (flushPutBitsLE s.pb)) :
    readLE24 (ff_speedhq_end_slice s).pb (putBytesOutput (flushPutBitsLE s.pb)) = 0 := by
  have hFB := flush_len_eq s.pb
  have h8 : 8 * s.slice_start + 24 ≤ (flushPutBitsLE s.pb).length := by omega
  have hplen := length_patchLE24 (s := flushPutBitsLE s.pb)
    (k := s.slice_start) (v := putBytesOutput (flushPutBitsLE s.pb) - s.slice_start) h8
  have hmod : (patchLE24 (flushPutBitsLE s.pb) s.slice_start
      (putBytesOutput (flushPutBitsLE s.pb) - s.slice_start)).length % 8 = 0 := by
    rw [hplen]; omega
  have h0 := readLE24_append_last (v := 0) hmod
  have hB : (patchLE24 (flushPutBitsLE s.pb) s.slice_start
      (putBytesOutput (flushPutBitsLE s.pb) - s.slice_start)).length / 8 =
      putBytesOutput (flushPutBitsLE s.pb) := by
    rw [hplen]; omega
  rw [hB] at h0
  rw [end_slice_pb, h0]
  rfl

theorem end_slice_take (s : SHQState)
    (hin : s.slice_start + 3 ≤ putBytesOutput (flushPutBitsLE s.pb)) :
    (ff_speedhq_end_slice s).pb.take (8 * s.slice_start) =
      (flushPutBitsLE s.pb).take (8 * s.slice_start) := by
  have hFB := flush_len_eq s.pb
  have h8 : 8 * s.slice_start + 24 ≤ (flushPutBitsLE s.pb).length := by omega
  have hA : ((flushPutBitsLE s.pb).take (8 * s.slice_start)).length = 8 * s.slice_start := by
    rw [List.length_take]; omega
  rw [end_slice_pb, List.take_append_eq_append_take,
    show 8 * s.slice_start - (patchLE24 (flushPutBitsLE s.pb) s.slice_start
      (putBytesOutput (flushPutBitsLE s.pb) - s.slice_start)).length = 0 by
        rw [length_patchLE24 h8]; omega,
    List.take_zero, List.append_nil, patchLE24, List.append_assoc, List.take_left' hA]

theorem end_slice_drop (s : SHQState)
    (hin : s.slice_start + 3 ≤ putBytesOutput (flushPutBitsLE s.pb)) :
    ((ff_speedhq_end_slice s).pb.drop (8 * s.slice_start + 24)).take
        (8 * putBytesOutput (flushPutBitsLE s.pb) - (8 * s.slice_start + 24)) =
      (flushPutBitsLE s.pb).drop (8 * s.slice_start + 24) := by
  have hFB := flush_len_eq s.pb
  have h8 : 8 * s.slice_start + 24 ≤ (flushPutBitsLE s.pb).length := by omega
  have hplen := length_patchLE24 (s := flushPutBitsLE s.pb)
    (k := s.slice_start) (v := putBytesOutput (flushPutBitsLE s.pb) - s.slice_start) h8
  have hC : ((flushPutBitsLE s.pb).drop (8 * s.slice_start + 24)).length =
      8 * putBytesOutput (flushPutBitsLE s.pb) - (8 * s.slice_start + 24) := by
    rw [List.length_drop]; omega
  rw [end_slice_pb, List.drop_append_eq_append_drop,
    show 8 * s.slice_start + 24 - (patchLE24 (flushPutBitsLE s.pb) s.slice_start
      (putBytesOutput (flushPutBitsLE s.pb) - s.slice_start)).length = 0 by
        rw [hplen]; omega,
    List.drop_zero, drop_patchLE24 h8, List.take_append_eq_append_take,
    show 8 * putBytesOutput (flushPutBitsLE s.pb) - (8 * s.slice_start + 24) -
      ((flushPutBitsLE s.pb).drop (8 * s.slice_start + 24)).length = 0 by rw [hC]; omega,
    List.take_zero, List.append_nil, ← hC, List.take_length]

theorem byteAt_zero_append (x y : List Bool) (h : x.length = 8) :
    byteAt (x ++ y) 0 = bitsToNat x := by
  rw [byteAt, Nat.mul_zero, List.drop_zero, List.take_append_eq_append_take, h,
    Nat.sub_self, List.take_zero, List.append_nil,
    List.take_of_length_le (le_of_eq h)]

theorem readLE24_append_exact (x y : List Bool) (k : Nat) (h : x.length = 8 * k) :
    readLE24 (x ++ y) k = bitsToNat (y.take 24) := by
  rw [readLE24, List.drop_append_eq_append_drop, List.drop_eq_nil_of_le (le_of_eq h),
    h, Nat.sub_self, List.drop_zero, List.nil_append]

/-! ### The AC loop versus the per-position description -/

theorem acLoop_eq_claim (T : ACTables) (scan : Nat → Nat) (block : Nat → Int) :
    ∀ cnt i prev : Nat,
      acLoop T scan block cnt i prev =
        acClaimBits T scan block
          ((List.range' i cnt).filter (fun j => block (scan j) != 0)) prev := by
  intro cnt
  induction cnt with
  | zero => intro i prev; rfl
  | succ cnt ih =>
    intro i prev
    rw [List.range'_succ, List.filter_cons]
    by_cases h : block (scan i) = 0
    · simp only [h, bne_self_eq_false, cond_false, acLoop, if_pos rfl]
      exact ih (i + 1) prev
    · have hb : (block (scan i) != 0) = true := by simpa using h
      simp only [hb, cond_true, acLoop, if_neg h, acClaimBits]
      rw [ih (i + 1) i]

theorem acLoop_congr (T : ACTables) (scan : Nat → Nat) (block block2 : Nat → Int) :
    ∀ cnt i prev : Nat, (∀ j, i ≤ j → j < i + cnt → block (scan j) = block2 (scan j)) →
      acLoop T scan block cnt i prev = acLoop T scan block2 cnt i prev := by
  intro cnt
  induction cnt with
  | zero => intro i prev _; rfl
  | succ cnt ih =>
    intro i prev hag
    have hi : block (scan i) = block2 (scan i) := hag i le_rfl (by omega)
    rw [acLoop, acLoop, hi]
    by_cases h : block2 (scan i) = 0
    · rw [if_pos h, if_pos h, ih (i + 1) prev (fun j h1 h2 => hag j (by omega) (by omega))]
    · rw [if_neg h, if_neg h, ih (i + 1) i (fun j h1 h2 => hag j (by omega) (by omega))]

theorem encodeBlocks_append (T : ACTables) (scan : Nat → Nat) (last_index : Nat → Nat)
    (blocks : Nat → Nat → Int) (l1 l2 : List Nat) (dc : Nat → Int) :
    encodeBlocks T scan last_index blocks (l1 ++ l2) dc =
      ((encodeBlocks T scan last_index blocks l1 dc).1 ++
        (encodeBlocks T scan last_index blocks l2
          (encodeBlocks T scan last_index blocks l1 dc).2).1,
       (encodeBlocks T scan last_index blocks l2
          (encodeBlocks T scan last_index blocks l1 dc).2).2) := by
  induction l1 generalizing dc with
  | nil => simp [encodeBlocks]
  | cons n rest ih => simp [encodeBlocks, ih, List.append_assoc]

/-! ## Claim theorems -/

/-- C1 (counterexample): close the first slice right after the picture
header (qscale 7).  The 24-bit value back-patched at `slice_start = 4` is
3, while the number of payload bytes that follow the length field up to
the next length field is 0 — the field does not exclude its own 3 bytes. -/
theorem slice_len_excludes_field_counterexample :
    readLE24 (ff_speedhq_end_slice (ff_speedhq_encode_picture_header 7 ⟨[], 0⟩)).pb
        (ff_speedhq_encode_picture_header 7 ⟨[], 0⟩).slice_start = 3 ∧
    (ff_speedhq_end_slice (ff_speedhq_encode_picture_header 7 ⟨[], 0⟩)).slice_start -
        ((ff_speedhq_encode_picture_header 7 ⟨[], 0⟩).slice_start + 3) = 0 ∧
    (3 : Nat) ≠ 0 := by
  decide

/-- C1 (amended): for every slice closed by `ff_speedhq_end_slice`, the
24-bit little-endian value written at the recorded `slice_start` equals
the byte distance from the start of the length field to the next length
field — that is, the payload byte count plus the 3 bytes of the length
field itself (inclusive, not exclusive). -/
theorem slice_len_field_value (s : SHQState)
    (hin : s.slice_start + 3 ≤ putBytesOutput (flushPutBitsLE s.pb))
    (hlen : putBytesOutput (flushPutBitsLE s.pb) - s.slice_start < 2 ^ 24) :
    readLE24 (ff_speedhq_end_slice s).pb s.slice_start =
      (ff_speedhq_end_slice s).slice_start - s.slice_start ∧
    (ff_speedhq_end_slice s).slice_start - s.slice_start =
      3 + ((ff_speedhq_end_slice s).slice_start - (s.slice_start + 3)) := by
  rw [end_slice_field s hin hlen, end_slice_sliceStart s hin]
  omega

/-- Witness for C1's amended theorem at the state right after the picture
header: the field holds 3 = 3 length bytes + 0 payload bytes. -/
theorem slice_len_field_value_witness :
    readLE24 (ff_speedhq_end_slice (ff_speedhq_encode_picture_header 7 ⟨[], 0⟩)).pb
        (ff_speedhq_encode_picture_header 7 ⟨[], 0⟩).slice_start =
      (ff_speedhq_end_slice (ff_speedhq_encode_picture_header 7 ⟨[], 0⟩)).slice_start -
        (ff_speedhq_encode_picture_header 7 ⟨[], 0⟩).slice_start ∧
    (ff_speedhq_end_slice (ff_speedhq_encode_picture_header 7 ⟨[], 0⟩)).slice_start -
        (ff_speedhq_encode_picture_header 7 ⟨[], 0⟩).slice_start =
      3 + ((ff_speedhq_end_slice (ff_speedhq_encode_picture_header 7 ⟨[], 0⟩)).slice_start -
        ((ff_speedhq_encode_picture_header 7 ⟨[], 0⟩).slice_start + 3)) :=
  slice_len_field_value (ff_speedhq_encode_picture_header 7 ⟨[], 0⟩) (by decide) (by decide)

/-- C2: `ff_speedhq_end_slice` byte-aligns the writer by zero-padding
(`flushPutBitsLE`; the output is `8B + 24` bits long where `B` is the
aligned byte count), writes `slice_len =` current byte offset minus
`slice_start` as a little-endian 24-bit value at offset `slice_start`
(read back by `readLE24`, everything before and after the 3-byte field
unchanged), records the current byte offset as the new `slice_start`, and
appends a 24-bit zero placeholder for the next slice. -/
theorem end_slice_behavior (s : SHQState)
    (hin : s.slice_start + 3 ≤ putBytesOutput (flushPutBitsLE s.pb))
    (hlen : putBytesOutput (flushPutBitsLE s.pb) - s.slice_start < 2 ^ 24) :
    (ff_speedhq_end_slice s).slice_start = putBytesOutput (flushPutBitsLE s.pb) ∧
    readLE24 (ff_speedhq_end_slice s).pb s.slice_start =
      putBytesOutput (flushPutBitsLE s.pb) - s.slice_start ∧
    readLE24 (ff_speedhq_end_slice s).pb (putBytesOutput (flushPutBitsLE s.pb)) = 0 ∧
    (ff_speedhq_end_slice s).pb.length = 8 * putBytesOutput (flushPutBitsLE s.pb) + 24 ∧
    (ff_speedhq_end_slice s).pb.take (8 * s.slice_start) =
      (flushPutBitsLE s.pb).take (8 * s.slice_start) ∧
    ((ff_speedhq_end_slice s).pb.drop (8 * s.slice_start + 24)).take
        (8 * putBytesOutput (flushPutBitsLE s.pb) - (8 * s.slice_start + 24)) =
      (flushPutBitsLE s.pb).drop (8 * s.slice_start + 24) := by
  have hFB := flush_len_eq s.pb
  have h8 : 8 * s.slice_start + 24 ≤ (flushPutBitsLE s.pb).length := by omega
  refine ⟨end_slice_sliceStart s hin, end_slice_field s hin hlen,
    end_slice_placeholder s hin, ?_, end_slice_take s hin, end_slice_drop s hin⟩
  rw [end_slice_pb, List.length_append, length_patchLE24 h8, length_putBitsLE]
  omega

/-- Witness for C2 at the state right after the picture header. -/
theorem end_slice_behavior_witness :
    (ff_speedhq_end_slice (ff_speedhq_encode_picture_header 7 ⟨[], 0⟩)).slice_start =
      putBytesOutput (flushPutBitsLE (ff_speedhq_encode_picture_header 7 ⟨[], 0⟩).pb) ∧
    readLE24 (ff_speedhq_end_slice (ff_speedhq_encode_picture_header 7 ⟨[], 0⟩)).pb
        (ff_speedhq_encode_picture_header 7 ⟨[], 0⟩).slice_start =
      putBytesOutput (flushPutBitsLE (ff_speedhq_encode_picture_header 7 ⟨[], 0⟩).pb) -
        (ff_speedhq_encode_picture_header 7 ⟨[], 0⟩).slice_start ∧
    readLE24 (ff_speedhq_end_slice (ff_speedhq_encode_picture_header 7 ⟨[], 0⟩)).pb
        (putBytesOutput (flushPutBitsLE (ff_speedhq_encode_picture_header 7 ⟨[], 0⟩).pb)) = 0 ∧
    (ff_speedhq_end_slice (ff_speedhq_encode_picture_header 7 ⟨[], 0⟩)).pb.length =
      8 * putBytesOutput (flushPutBitsLE (ff_speedhq_encode_picture_header 7 ⟨[], 0⟩).pb) + 24 ∧
    (ff_speedhq_end_slice (ff_speedhq_encode_picture_header 7 ⟨[], 0⟩)).pb.take
        (8 * (ff_speedhq_encode_picture_header 7 ⟨[], 0⟩).slice_start) =
      (flushPutBitsLE (ff_speedhq_encode_picture_header 7 ⟨[], 0⟩).pb).take
        (8 * (ff_speedhq_encode_picture_header 7 ⟨[], 0⟩).slice_start) ∧
    ((ff_speedhq_end_slice (ff_speedhq_encode_picture_header 7 ⟨[], 0⟩)).pb.drop
        (8 * (ff_speedhq_encode_picture_header 7 ⟨[], 0⟩).slice_start + 24)).take
        (8 * putBytesOutput (flushPutBitsLE (ff_speedhq_encode_picture_header 7 ⟨[], 0⟩).pb) -
          (8 * (ff_speedhq_encode_picture_header 7 ⟨[], 0⟩).slice_start + 24)) =
      (flushPutBitsLE (ff_speedhq_encode_picture_header 7 ⟨[], 0⟩).pb).drop
        (8 * (ff_speedhq_encode_picture_header 7 ⟨[], 0⟩).slice_start + 24) :=
  end_slice_behavior (ff_speedhq_encode_picture_header 7 ⟨[], 0⟩) (by decide) (by decide)

/-- C7: starting from an empty buffer, `ff_speedhq_encode_picture_header`
emits exactly 7 bytes: first byte `100 - 2*qscale`, then the 24-bit
little-endian value 4, then a 24-bit zero placeholder, and it sets
`slice_start` to 4. -/
theorem picture_header_layout (q : Int) (s : SHQState)
    (hq1 : 1 ≤ q) (hq2 : q ≤ 50) (h0 : s.pb = []) :
    (ff_speedhq_encode_picture_header q s).pb.length = 56 ∧
    byteAt (ff_speedhq_encode_picture_header q s).pb 0 = (100 - 2 * q).toNat ∧
    readLE24 (ff_speedhq_encode_picture_header q s).pb 1 = 4 ∧
    readLE24 (ff_speedhq_encode_picture_header q s).pb 4 = 0 ∧
    (ff_speedhq_encode_picture_header q s).slice_start = 4 := by
  have hpb : (ff_speedhq_encode_picture_header q s).pb =
      (putBitsLEInt 8 (100 - q * 2) ++ putBitsLE 24 4) ++ putBitsLE 24 0 := by
    show (s.pb ++ _ ++ _ ++ _ : List Bool) = _
    rw [h0, List.nil_append]
  have hlen8 : (putBitsLEInt 8 (100 - q * 2)).length = 8 := by
    rw [putBitsLEInt, length_putBitsLE]
  have hval : (((100 - q * 2 : Int) % (2 ^ 8 : Int)).toNat = (100 - 2 * q).toNat) := by
    have h256 : (2 : Int) ^ 8 = 256 := by norm_num
    rw [h256, Int.emod_eq_of_lt (by omega) (by omega), mul_comm q 2]
  refine ⟨?_, ?_, ?_, ?_, rfl⟩
  · rw [hpb]
    simp [putBitsLEInt]
  · rw [hpb, List.append_assoc, byteAt_zero_append _ _ hlen8, putBitsLEInt,
      bitsToNat_putBitsLE]
    rw [← hval]
    exact Nat.mod_eq_of_lt (by omega)
  · rw [hpb, List.append_assoc,
      readLE24_append_exact _ _ 1 (by rw [hlen8]),
      List.take_append_eq_append_take, length_putBitsLE,
      Nat.sub_self, List.take_zero, List.append_nil,
      List.take_of_length_le (le_of_eq (length_putBitsLE 24 4)),
      bitsToNat_putBitsLE]
    norm_num
  · rw [hpb, readLE24_append_exact _ _ 4
      (by rw [List.length_append, hlen8, length_putBitsLE]),
      List.take_of_length_le (le_of_eq (length_putBitsLE 24 0)),
      bitsToNat_putBitsLE]
    norm_num

/-- Witness for C7 at `qscale = 7`: the first byte is `100 - 14 = 86`. -/
theorem picture_header_layout_witness :
    (ff_speedhq_encode_picture_header 7 ⟨[], 0⟩).pb.length = 56 ∧
    byteAt (ff_speedhq_encode_picture_header 7 ⟨[], 0⟩).pb 0 = ((100 : Int) - 2 * 7).toNat ∧
    readLE24 (ff_speedhq_encode_picture_header 7 ⟨[], 0⟩).pb 1 = 4 ∧
    readLE24 (ff_speedhq_encode_picture_header 7 ⟨[], 0⟩).pb 4 = 0 ∧
    (ff_speedhq_encode_picture_header 7 ⟨[], 0⟩).slice_start = 4 :=
  picture_header_layout 7 ⟨[], 0⟩ (by decide) (by decide) rfl

/-- C8 (counterexample): width 8 (not a multiple of 16, within the size
bound) makes `ff_speedhq_encode_init` fail, but with
`AVERROR_PATCHWELCOME`, not the invalid-argument code `AVERROR(EINVAL)`. -/
theorem init_invalid_argument_counterexample :
    ff_speedhq_encode_init 8 16 = .error .patchwelcome ∧
    InitError.patchwelcome ≠ InitError.einval :=
  ⟨rfl, by decide⟩

/-- C8 (amended): `ff_speedhq_encode_init` fails exactly when the width is
not a multiple of 16 or either dimension exceeds 65500; a dimension above
65500 is reported as invalid-argument (`EINVAL`), while a width that is
not a multiple of 16 (with both dimensions in range) is reported as
`AVERROR_PATCHWELCOME`; the validation depends only on the dimensions. -/
theorem init_failure_conditions (w h : Nat) :
    (ff_speedhq_encode_init w h ≠ .ok () ↔ w % 16 ≠ 0 ∨ w > 65500 ∨ h > 65500) ∧
    (ff_speedhq_encode_init w h = .error .einval ↔ (w > 65500 ∨ h > 65500)) ∧
    (ff_speedhq_encode_init w h = .error .patchwelcome ↔
      (w ≤ 65500 ∧ h ≤ 65500 ∧ w % 16 ≠ 0)) := by
  rw [ff_speedhq_encode_init]
  split_ifs with h1 h2
  all_goals simp_all
  all_goals omega

/-- Witness for C8's amended theorem at an oversize width: the failure is
the invalid-argument code. -/
theorem init_failure_conditions_witness :
    ff_speedhq_encode_init 70000 16 = .error .einval :=
  (init_failure_conditions 70000 16).2.1.mpr (by decide)

set_option maxRecDepth 10000 in
/-- C6: for every DC difference `d` with `|d| ≤ 255` (index `i = d + 255`
ranging over `0..510`) and both component classes (`c = 0` luma, `c = 1`
chroma), `encode_dc` — which takes the fast path here, emitting the packed
`dc_uni` entry (low 8 bits = bit count, upper bits = code) — produces
exactly the same bits as the slow-path computation (category from
`log2 (2|d|)`, decrement of `d` by one when negative, reversed category
prefix plus the zero-extended tail shifted above the prefix). -/
theorem dc_fast_path_eq_slow_path : ∀ i : Nat, i < 511 → ∀ c : Nat, c < 2 →
    encode_dc ((i : Int) - 255) c = encode_dc_slow ((i : Int) - 255) c := by
  decide

/-- Witness for C6 at `d = 45` (luma). -/
theorem dc_fast_path_eq_slow_path_witness :
    encode_dc (((300 : Nat) : Int) - 255) 0 = encode_dc_slow (((300 : Nat) : Int) - 255) 0 :=
  dc_fast_path_eq_slow_path 300 (by decide) 0 (by decide)

/-- C3: the bits `encode_block` emits are the DC code, then, for each
nonzero AC coefficient at scan position `i` (`1 ≤ i ≤ last_index`) with
`run = i - last_nonzero_position - 1`: when `alevel = |level|` is within
`max_level_for_run[run]`, `len + 1` bits of `code | (sign << len)` with
`(code, len) = ac_vlc[index_for_run[run] + alevel - 1]` and `sign = 1` iff
`level < 0`, otherwise 6 bits of 32, `run` in 6 bits and `level + 2048` in
12 bits (these are the cases of `acCoeffBits`, folded over the nonzero
positions by `acClaimBits`); and after the last AC coefficient the 4-bit
end-of-block value 6. -/
theorem encode_block_emission (T : ACTables) (scan : Nat → Nat) (last_index : Nat)
    (last_dc : Nat → Int) (block : Nat → Int) (n : Nat) :
    (encode_block T scan last_index last_dc block n).1 =
      encode_dc (last_dc (if n ≤ 3 then 0 else n % 2 + 1) - block 0)
          (if n ≤ 3 then 0 else n % 2 + 1) ++
        acClaimBits T scan block (nzPositions scan block last_index) 0 ++
        putBitsLE 4 6 := by
  show encode_dc _ _ ++ acLoop T scan block last_index 1 0 ++ putBitsLE 4 6 = _
  rw [acLoop_eq_claim T scan block last_index 1 0, nzPositions]

/-- Witness for C3 on a concrete block: coefficient 2 at scan position 1
(VLC path) and coefficient -3000 at scan position 3 (escape path). -/
theorem encode_block_emission_witness :
    (encode_block testTables (fun j => j) 3 (fun _ => 10)
        (fun j => if j = 1 then 2 else if j = 3 then -3000 else 0) 4).1 =
      encode_dc ((fun _ => (10 : Int)) (if 4 ≤ 3 then 0 else 4 % 2 + 1) -
          (fun j => if j = 1 then (2 : Int) else if j = 3 then -3000 else 0) 0)
          (if 4 ≤ 3 then 0 else 4 % 2 + 1) ++
        acClaimBits testTables (fun j => j)
          (fun j => if j = 1 then 2 else if j = 3 then -3000 else 0)
          (nzPositions (fun j => j)
            (fun j => if j = 1 then 2 else if j = 3 then -3000 else 0) 3) 0 ++
        putBitsLE 4 6 :=
  encode_block_emission testTables (fun j => j) 3 (fun _ => 10)
    (fun j => if j = 1 then 2 else if j = 3 then -3000 else 0) 4

/-- C4: `encode_block` selects component 0 when `n ≤ 3` and `(n & 1) + 1`
(that is, `n % 2 + 1`) otherwise, starts its output with the DC encoding
of `diff = last_dc[component] - block[0]` (previous minus current), and
returns `last_dc` updated only at `component`, to `block[0]`. -/
theorem encode_block_dc_handling (T : ACTables) (scan : Nat → Nat) (last_index : Nat)
    (last_dc : Nat → Int) (block : Nat → Int) (n : Nat) :
    (∃ rest, (encode_block T scan last_index last_dc block n).1 =
      encode_dc (last_dc (if n ≤ 3 then 0 else n % 2 + 1) - block 0)
        (if n ≤ 3 then 0 else n % 2 + 1) ++ rest) ∧
    (encode_block T scan last_index last_dc block n).2
      (if n ≤ 3 then 0 else n % 2 + 1) = block 0 ∧
    (∀ k, k ≠ (if n ≤ 3 then 0 else n % 2 + 1) →
      (encode_block T scan last_index last_dc block n).2 k = last_dc k) := by
  refine ⟨⟨acLoop T scan block last_index 1 0 ++ putBitsLE 4 6, ?_⟩, ?_, ?_⟩
  · show encode_dc _ _ ++ acLoop T scan block last_index 1 0 ++ putBitsLE 4 6 = _
    rw [List.append_assoc]
  · show (if _ then block 0 else last_dc _) = block 0
    rw [if_pos rfl]
  · intro k hk
    show (if k = _ then block 0 else last_dc k) = last_dc k
    rw [if_neg hk]

/-- Witness for C4 at block index `n = 5` (component `5 % 2 + 1 = 2`). -/
theorem encode_block_dc_handling_witness :
    (∃ rest, (encode_block testTables (fun j => j) 0 (fun k => 7 * k) (fun _ => 3) 5).1 =
      encode_dc ((fun k => 7 * (k : Int)) (if 5 ≤ 3 then 0 else 5 % 2 + 1) -
          (fun _ => (3 : Int)) 0) (if 5 ≤ 3 then 0 else 5 % 2 + 1) ++ rest) ∧
    (encode_block testTables (fun j => j) 0 (fun k => 7 * k) (fun _ => 3) 5).2
      (if 5 ≤ 3 then 0 else 5 % 2 + 1) = (fun _ => (3 : Int)) 0 ∧
    (∀ k, k ≠ (if 5 ≤ 3 then 0 else 5 % 2 + 1) →
      (encode_block testTables (fun j => j) 0 (fun k => 7 * k) (fun _ => 3) 5).2 k =
        7 * (k : Int)) :=
  encode_block_dc_handling testTables (fun j => j) 0 (fun k => 7 * k) (fun _ => 3) 5

/-- C5: `ff_speedhq_encode_mb` encodes exactly the block sequence
0,1,2,3,4,5 for 4:2:0; 0..7 for 4:2:2; and 0,1,2,3,4,5,8,9,6,7,10,11 for
4:4:4 — its output (bits and final DC predictors) is the sequential
encoding of `mbClaimOrder`. -/
theorem mb_block_order (T : ACTables) (scan : Nat → Nat) (last_index : Nat → Nat)
    (cf : ChromaFormat) (blocks : Nat → Nat → Int) (last_dc : Nat → Int) :
    ff_speedhq_encode_mb T scan last_index cf blocks last_dc =
      encodeBlocks T scan last_index blocks (mbClaimOrder cf) last_dc := by
  cases cf
  · rfl
  · rw [show mbClaimOrder .c422 = [0, 1, 2, 3, 4, 5] ++ [6, 7] from rfl,
      encodeBlocks_append]
    rfl
  · rw [show mbClaimOrder .c444 = [0, 1, 2, 3, 4, 5] ++ [8, 9, 6, 7, 10, 11] from rfl,
      encodeBlocks_append]
    rfl

/-- C9 (counterexample): a block whose third scan coefficient is -3000
(magnitude above 2047) is encoded without any error: the block encoder
emits the escape sequence — 6 bits of 32, the run 1 in 6 bits, and
`-3000 + 2048 = -952`, i.e. 3144 as the wrapped 12-bit field — rather
than aborting the picture. -/
theorem escape_abort_counterexample :
    (encode_block testTables (fun j => j) 2 (fun _ => 0)
        (fun j => if j = 2 then -3000 else 0) 0).1 =
      encode_dc 0 0 ++ (putBitsLE 6 32 ++ putBitsLE 6 1 ++ putBitsLE 12 3144) ++
        putBitsLE 4 6 := by
  decide

/-- C9 (amended): the block encoder never aborts: every AC coefficient
whose magnitude exceeds 2047 (hence exceeds `max_level_for_run[run]`) is
emitted as the escape sequence whose 12-bit field carries `level + 2048`
reduced mod `2^12` (the two's-complement low 12 bits); the encoder relies
on the front-end clamp (`min_qcoeff = -2048`, `max_qcoeff = 2047`
installed at init) to keep the field in range. -/
theorem escape_emitted_not_abort (T : ACTables) (level : Int) (run : Nat)
    (_h1 : 2047 < level.natAbs) (h2 : T.max_level run < level.natAbs) :
    acCoeffBits T level run =
      putBitsLE 6 32 ++ putBitsLE 6 run ++
        putBitsLE 12 ((level + 2048) % (2 ^ 12 : Int)).toNat := by
  rw [acCoeffBits]
  rw [if_neg (by omega)]
  rfl

/-- Witness for C9's amended theorem at `level = -3000`, `run = 1`. -/
theorem escape_emitted_not_abort_witness :
    acCoeffBits testTables (-3000) 1 =
      putBitsLE 6 32 ++ putBitsLE 6 1 ++
        putBitsLE 12 (((-3000 : Int) + 2048) % (2 ^ 12 : Int)).toNat :=
  escape_emitted_not_abort testTables (-3000) 1 (by decide) (by decide)

/-- C10: two `encode_block` calls with the same block index, `last_index`,
scan permutation, tables and initial `last_dc`, whose coefficient arrays
agree at index 0 and at every scan position `scan i` for
`1 ≤ i ≤ last_index`, produce identical bits and identical final
`last_dc`: coefficients beyond `last_index` never influence the output. -/
theorem encode_block_noninterference (T : ACTables) (scan : Nat → Nat)
    (last_index : Nat) (last_dc : Nat → Int) (block block2 : Nat → Int) (n : Nat)
    (h0 : block 0 = block2 0)
    (hsc : ∀ i, 1 ≤ i → i ≤ last_index → block (scan i) = block2 (scan i)) :
    encode_block T scan last_index last_dc block n =
      encode_block T scan last_index last_dc block2 n := by
  rw [encode_block, encode_block, h0,
    acLoop_congr T scan block block2 last_index 1 0
      (fun j hj1 hj2 => hsc j hj1 (by omega))]

/-- Witness for C10: the second block has an extra coefficient at scan
position 5, beyond `last_index = 2`; the outputs coincide. -/
theorem encode_block_noninterference_witness :
    encode_block testTables (fun j => j) 2 (fun _ => 0)
        (fun j => if j = 1 then 3 else 0) 0 =
      encode_block testTables (fun j => j) 2 (fun _ => 0)
        (fun j => if j = 1 then 3 else if j = 5 then 7 else 0) 0 :=
  encode_block_noninterference testTables (fun j => j) 2 (fun _ => 0)
    (fun j => if j = 1 then 3 else 0)
    (fun j => if j = 1 then 3 else if j = 5 then 7 else 0) 0 rfl
    (fun i _ h2 => by interval_cases i <;> rfl)

end SpeedHQ
